import Mathlib

set_option maxHeartbeats 1000000
set_option maxRecDepth 100000

/-!
Shallow embedding of the line buffer of `src/text_editor.c`.

A node's `char text[128]` array is modelled as a `List Nat` of byte values
(`Text`); `calloc` yields 128 zero bytes.  The buffer's singly linked list of
nodes is modelled as a `List Text` holding the nodes from `head` in order, and
`buffer_select_node` returns the updated store together with the index of the
node that `b->current` points at afterwards.

C's `strlen` (count of bytes before the first NUL) and the three buffer
functions are translated loop by loop; each C `for` loop becomes a structurally
recursive function with an explicit iteration budget (`fuel`) chosen to be at
least the number of iterations the C loop performs within defined behaviour, so
that the Lean functions compute by `decide`/`rfl`.
-/

/-- The constant `MAX_LINE_LEN`: the size of each node's `char text[128]` array. -/
def MAX_LINE_LEN : Nat := 128

/-- The byte contents of a node's `text` array. -/
abbrev Text := List Nat

/-- C `strlen`: the number of bytes before the first NUL byte. -/
def strlen : Text → Nat
  | [] => 0
  | a :: t => if a = 0 then 0 else strlen t + 1

/-- The logical content of a line: its bytes before the first NUL byte. -/
def content : Text → List Nat
  | [] => []
  | a :: t => if a = 0 then [] else a :: content t

/-- Reading `text[i]`.  A read at a negative index, or past the end of the
array, is out of bounds in C; the claims never depend on such reads, and we
model them as producing the NUL byte. -/
def getChar (t : Text) (i : Int) : Nat :=
  if 0 ≤ i then t.getD i.toNat 0 else 0

/-- Writing `text[i] = v`.  A write at a negative index, or past the end of
the array, is out of bounds in C; the claims never depend on such writes, and
we model them as no-ops. -/
def setChar (t : Text) (i : Int) (v : Nat) : Text :=
  if 0 ≤ i then t.set i.toNat v else t

/-- The text array of a line whose logical content is `c`: the bytes of `c`
followed by NUL bytes up to the array size.  For NUL-free `c` with
`c.length ≤ MAX_LINE_LEN - 1` these are exactly the well-formed states of a
node's `text` array (content, terminator, `calloc`-zeroed tail). -/
def mkText (c : List Nat) : Text := c ++ List.replicate (MAX_LINE_LEN - c.length) 0

/-- A freshly `calloc`ed node's text: 128 NUL bytes. -/
def emptyText : Text := mkText []

/-- The store: the list of nodes reachable from `head`, in order. -/
abbrev Buffer := List Text

/-- The walk in `buffer_select_node`: starting at node `i`, while `i < y`,
move to the next node, allocating a `calloc`ed node whenever
`current->next == NULL`. -/
def selectWalk : Nat → Buffer → Nat → Int → Buffer × Nat
  | 0, b, i, _ => (b, i)
  | fuel + 1, b, i, y =>
    if (i : Int) < y then
      if i + 1 < b.length then selectWalk fuel b (i + 1) y
      else selectWalk fuel (b ++ [emptyText]) (i + 1) y
    else (b, i)

/-- The function `buffer_select_node(Buffer *b, int y)`: create the head node if the store
is empty, then walk from the head with `for (i = 0; i < y; i++)`, allocating
missing nodes; afterwards `current` is the node at index `y` (at index 0 when
`y ≤ 0`, because the loop body never runs then). -/
def buffer_select_node (b : Buffer) (y : Int) : Buffer × Nat :=
  let b0 := if b.isEmpty then [emptyText] else b
  selectWalk y.toNat b0 0 y

/-- The shift-left loop of `buffer_remove_character`:
`for (int i = x - 1; i < strlen(text); i++) text[i] = text[i + 1];`.
The guard compares the `int` index with the `size_t` result of `strlen`, so
the index is converted to `size_t`; a negative index hence compares as a huge
unsigned value and the body never runs.  For a non-negative start index the
loop is the `Nat`-indexed loop below (the index only grows). -/
def removeLoop : Nat → Text → Nat → Text
  | 0, t, _ => t
  | fuel + 1, t, i =>
    if i < strlen t then removeLoop fuel (t.set i (t.getD (i + 1) 0)) (i + 1) else t

/-- The effect of `buffer_remove_character` on the selected node's `text`.  When
`x - 1 < 0` the signed-to-unsigned conversion in the loop guard keeps the loop
from running at all (see `removeLoop`); otherwise the loop runs from `x - 1`.
The trailing `text[strlen(text)] = 0` writes a NUL byte where a NUL byte
already sits.  The loop runs at most `strlen` times, so `t.length` fuel
suffices. -/
def text_remove_character (t : Text) (x : Int) : Text :=
  let t1 := if 0 ≤ x - 1 then removeLoop t.length t (x - 1).toNat else t
  t1.set (strlen t1) 0

/-- The gap-fill loop of `buffer_insert_character`:
`for (int i = 0; i < x; i++) if (text[i] == 0) text[i] = ' ';` -/
def gapLoop : Nat → Text → Nat → Int → Text
  | 0, t, _, _ => t
  | fuel + 1, t, i, x =>
    if (i : Int) < x then
      gapLoop fuel (if t.getD i 0 = 0 then t.set i 32 else t) (i + 1) x
    else t

/-- The shift-right loop of `buffer_insert_character`:
`for (int i = strlen(text); i >= x; i--) text[i + 1] = text[i];` -/
def shiftLoop : Nat → Text → Int → Int → Text
  | 0, t, _, _ => t
  | fuel + 1, t, i, x =>
    if x ≤ i then shiftLoop fuel (setChar t (i + 1) (getChar t i)) (i - 1) x else t

/-- The effect of `buffer_insert_character` on the selected node's `text`: replace
the NUL bytes before column `x` with spaces (byte 32), shift everything right
of `x` one slot to the right when `text[x]` is not NUL, then write `ch` at
`x`.  The gap-fill loop runs `x` times and the shift loop
`strlen - x + 1` times, which the fuel arguments provide exactly. -/
def text_insert_character (t : Text) (ch : Nat) (x : Int) : Text :=
  let t1 := gapLoop x.toNat t 0 x
  let t2 :=
    if getChar t1 x ≠ 0 then
      shiftLoop ((strlen t1 : Int) - x + 1).toNat t1 (strlen t1) x
    else t1
  setChar t2 x ch

/-- The function `buffer_remove_character(Buffer *b, int x, int y)`. -/
def buffer_remove_character (b : Buffer) (x y : Int) : Buffer :=
  let s := buffer_select_node b y
  s.1.set s.2 (text_remove_character (s.1.getD s.2 emptyText) x)

/-- The function `buffer_insert_character(Buffer *b, int ch, int x, int y)`. -/
def buffer_insert_character (b : Buffer) (ch : Nat) (x y : Int) : Buffer :=
  let s := buffer_select_node b y
  s.1.set s.2 (text_insert_character (s.1.getD s.2 emptyText) ch x)

/-- The error vocabulary of the spec (§7). -/
inductive EditError : Type
  | invalidPosition
  | lineOverflow
deriving DecidableEq

/-- The outcome of the source's delete, expressed in the spec's result
vocabulary: the C function returns `void` and has no failure path, so every
call is a success carrying the updated text.  Used to compare the code
against the spec's mandate that certain calls fail with an error. -/
def text_remove_outcome (t : Text) (x : Int) : Except EditError Text :=
  Except.ok (text_remove_character t x)

/-! ### Basic facts about `strlen`, `content`, `mkText` -/

theorem strlen_le_length (t : Text) : strlen t ≤ t.length := by
  induction t with
  | nil => simp [strlen]
  | cons a t ih =>
    by_cases h : a = 0
    · simp [strlen, h]
    · simp [strlen, h]; omega

theorem strlen_append (c z : List Nat) (hc : ∀ a ∈ c, a ≠ 0) :
    strlen (c ++ 0 :: z) = c.length := by
  induction c with
  | nil => simp [strlen]
  | cons a c ih =>
    have ha : a ≠ 0 := hc a (by simp)
    simp [strlen, ha, ih (fun b hb => hc b (by simp [hb]))]

theorem content_append (c z : List Nat) (hc : ∀ a ∈ c, a ≠ 0) :
    content (c ++ 0 :: z) = c := by
  induction c with
  | nil => simp [content]
  | cons a c ih =>
    have ha : a ≠ 0 := hc a (by simp)
    simp [content, ha, ih (fun b hb => hc b (by simp [hb]))]

theorem mkText_eq (c : List Nat) (h : c.length ≤ MAX_LINE_LEN - 1) :
    mkText c = c ++ 0 :: List.replicate (MAX_LINE_LEN - 1 - c.length) 0 := by
  have h2 : MAX_LINE_LEN - c.length = (MAX_LINE_LEN - 1 - c.length) + 1 := by
    simp only [MAX_LINE_LEN] at *; omega
  rw [mkText, h2, List.replicate_succ]

theorem mkText_length (c : List Nat) (h : c.length ≤ MAX_LINE_LEN) :
    (mkText c).length = MAX_LINE_LEN := by
  simp [mkText]; omega

theorem strlen_mkText (c : List Nat) (hc : ∀ a ∈ c, a ≠ 0)
    (h : c.length ≤ MAX_LINE_LEN - 1) : strlen (mkText c) = c.length := by
  rw [mkText_eq c h, strlen_append c _ hc]

theorem content_mkText (c : List Nat) (hc : ∀ a ∈ c, a ≠ 0)
    (h : c.length ≤ MAX_LINE_LEN - 1) : content (mkText c) = c := by
  rw [mkText_eq c h, content_append c _ hc]

theorem getD_strlen (t : Text) : t.getD (strlen t) 0 = 0 := by
  induction t with
  | nil => simp
  | cons a t ih =>
    by_cases h : a = 0
    · simp [strlen, h]
    · simpa [strlen, h] using ih

/-! ### Small list helpers -/

theorem set_getD_self {α : Type} (l : List α) (i : Nat) (d : α) :
    l.set i (l.getD i d) = l := by
  induction l generalizing i with
  | nil => simp
  | cons a l ih =>
    cases i with
    | zero => simp
    | succ n => simpa [List.getD] using ih n

theorem getD_append_left {α : Type} (l₁ l₂ : List α) (n : Nat) (d : α)
    (h : n < l₁.length) : (l₁ ++ l₂).getD n d = l₁.getD n d := by
  induction l₁ generalizing n with
  | nil => simp at h
  | cons a l ih =>
    cases n with
    | zero => simp
    | succ n => simpa using ih n (by simpa using h)

theorem getD_append_right {α : Type} (l₁ l₂ : List α) (n : Nat) (d : α) :
    (l₁ ++ l₂).getD (l₁.length + n) d = l₂.getD n d := by
  induction l₁ with
  | nil => simp
  | cons a l ih =>
    have h2 : (a :: l).length + n = (l.length + n) + 1 := by simp; omega
    rw [h2, List.cons_append, List.getD_cons_succ, ih]

theorem getD_take {α : Type} (l : List α) (x p : Nat) (d : α) (h : p < x) :
    (l.take x).getD p d = l.getD p d := by
  induction l generalizing x p with
  | nil => simp
  | cons a l ih =>
    cases x with
    | zero => omega
    | succ x =>
      cases p with
      | zero => simp
      | succ p => simpa using ih x p (by omega)

theorem getD_drop {α : Type} (l : List α) (x p : Nat) (d : α) :
    (l.drop x).getD p d = l.getD (x + p) d := by
  induction l generalizing x with
  | nil => simp
  | cons a l ih =>
    cases x with
    | zero => simp
    | succ x =>
      have h2 : x + 1 + p = (x + p) + 1 := by omega
      rw [h2, List.drop_succ_cons, List.getD_cons_succ, ih]

theorem set_append_left {α : Type} (l₁ l₂ : List α) (n : Nat) (a : α)
    (h : n < l₁.length) : (l₁ ++ l₂).set n a = l₁.set n a ++ l₂ := by
  induction l₁ generalizing n with
  | nil => simp at h
  | cons b l ih =>
    cases n with
    | zero => simp
    | succ n => simp [ih n (by simpa using h)]

theorem take_append_exact {α : Type} (l₁ l₂ : List α) (n : Nat) :
    (l₁ ++ l₂).take (l₁.length + n) = l₁ ++ l₂.take n := by
  induction l₁ with
  | nil => simp
  | cons a l ih =>
    have h2 : (a :: l).length + n = (l.length + n) + 1 := by simp; omega
    rw [h2, List.cons_append, List.take_succ_cons, ih, List.cons_append]

theorem drop_append_exact {α : Type} (l₁ l₂ : List α) (n : Nat) :
    (l₁ ++ l₂).drop (l₁.length + n) = l₂.drop n := by
  induction l₁ with
  | nil => simp
  | cons a l ih =>
    have h2 : (a :: l).length + n = (l.length + n) + 1 := by simp; omega
    rw [h2, List.cons_append, List.drop_succ_cons, ih]

/-! ### Characterizing the delete loop -/

/-- Once the guard fails, `removeLoop` is the identity, for any fuel. -/
theorem removeLoop_stop (fuel : Nat) (t : Text) (i : Nat) (h : ¬ i < strlen t) :
    removeLoop fuel t i = t := by
  cases fuel <;> simp [removeLoop, h]

/-- Effect of the delete loop on a well-formed array `c ++ 0 :: z` (NUL-free
content `c`, terminator, tail `z`), started inside the content: the bytes from
`i + 1` on shift left one slot and a NUL takes the last content slot. -/
theorem removeLoop_spec (fuel : Nat) :
    ∀ (c z : List Nat) (i : Nat), (∀ a ∈ c, a ≠ 0) → i < c.length →
      c.length - i ≤ fuel →
      removeLoop fuel (c ++ 0 :: z) i = (c.take i ++ c.drop (i + 1)) ++ 0 :: 0 :: z := by
  induction fuel with
  | zero => intro c z i _ hi hf; omega
  | succ fuel ih =>
    intro c z i hc hi hf
    have hstr : strlen (c ++ 0 :: z) = c.length := strlen_append c z hc
    rw [removeLoop, hstr, if_pos hi]
    by_cases hi1 : i + 1 < c.length
    · -- the byte after position `i` is still content
      have hv : (c ++ 0 :: z).getD (i + 1) 0 = c.getD (i + 1) 0 :=
        getD_append_left c (0 :: z) (i + 1) 0 hi1
      have hmem : c.getD (i + 1) 0 ∈ c := by
        rw [List.getD_eq_getElem c 0 hi1]; exact List.getElem_mem hi1
      have ha : c.getD (i + 1) 0 ≠ 0 := hc _ hmem
      set a := c.getD (i + 1) 0 with hadef
      have hset : (c ++ 0 :: z).set i a = c.set i a ++ 0 :: z :=
        set_append_left c (0 :: z) i a hi
      rw [hv, hset]
      have hc' : ∀ b ∈ c.set i a, b ≠ 0 := by
        intro b hb
        rw [List.set_eq_take_cons_drop a hi] at hb
        rcases List.mem_append.1 hb with hb1 | hb2
        · exact hc b (List.take_subset _ _ hb1)
        · rcases List.mem_cons.1 hb2 with rfl | hb3
          · exact ha
          · exact hc b (List.drop_subset _ _ hb3)
      have hlen' : (c.set i a).length = c.length := by simp
      have := ih (c.set i a) z (i + 1) hc' (by omega) (by omega)
      rw [this]
      have htc : c.set i a = c.take i ++ a :: c.drop (i + 1) :=
        List.set_eq_take_cons_drop a hi
      have h1 : (c.set i a).take (i + 1) = c.take i ++ [a] := by
        have hlt : i < (c.take (i + 1)).length := by simp; omega
        rw [List.set_take, List.set_eq_take_cons_drop a hlt, List.take_take,
          show min i (i + 1) = i by omega,
          List.drop_eq_nil_of_le (by simp)]
      have h2 : (c.set i a).drop (i + 2) = c.drop (i + 2) := by
        rw [List.drop_set, if_pos (by omega)]
      have h3 : c.drop (i + 1) = a :: c.drop (i + 2) := by
        rw [hadef, List.getD_eq_getElem c 0 hi1]
        exact List.drop_eq_getElem_cons hi1
      rw [h1, h2, h3]
      simp
    · -- position `i` is the last content byte: a NUL shifts into it
      have hieq : c.length = i + 1 := by omega
      have hv : (c ++ 0 :: z).getD (i + 1) 0 = 0 := by
        have := getD_append_right c (0 :: z) 0 0
        simpa [hieq] using this
      have hset : (c ++ 0 :: z).set i 0 = c.set i 0 ++ 0 :: z :=
        set_append_left c (0 :: z) i 0 hi
      rw [hv, hset]
      have htc : c.set i 0 = c.take i ++ [0] := by
        rw [List.set_eq_take_cons_drop 0 hi, show i + 1 = c.length from hieq.symm]
        simp
      have hstr' : strlen (c.set i 0 ++ 0 :: z) = i := by
        rw [htc, List.append_assoc, show ([0] ++ 0 :: z : List Nat) = 0 :: 0 :: z from rfl,
          strlen_append _ _ (fun b hb => hc b (List.take_subset _ _ hb))]
        simp; omega
      have hstop : removeLoop fuel (c.set i 0 ++ 0 :: z) (i + 1) = c.set i 0 ++ 0 :: z := by
        apply removeLoop_stop
        rw [hstr']
        omega
      rw [hstop, htc]
      have h4 : c.drop (i + 1) = [] := by
        rw [← hieq]; simp
      rw [h4]
      simp

/-- The final `text[strlen(text)] = 0` of the delete writes a NUL byte where
a NUL byte (or the array end) already is: it never changes the text. -/
theorem set_strlen_self (t : Text) : t.set (strlen t) 0 = t := by
  conv_lhs => rw [← getD_strlen t]
  exact set_getD_self t (strlen t) 0

/-- Delete at `x ≤ 0`: the loop guard's signed-to-unsigned conversion keeps
the loop from running, and the final NUL write is a no-op.  The text is
unchanged, whatever its state. -/
theorem text_remove_nonpos (t : Text) (x : Int) (h : x ≤ 0) :
    text_remove_character t x = t := by
  have h0 : ¬ (0 : Int) ≤ x - 1 := by omega
  simp only [text_remove_character, if_neg h0]
  exact set_strlen_self t

/-- Delete strictly past the end of content (`x - 1 ≥ strlen`): the loop
guard fails at once and the text is unchanged, whatever its state. -/
theorem text_remove_pastEnd (t : Text) (x : Int) (h : (strlen t : Int) ≤ x - 1) :
    text_remove_character t x = t := by
  have h0 : (0 : Int) ≤ x - 1 := by omega
  simp only [text_remove_character, if_pos h0]
  rw [removeLoop_stop _ _ _ (by omega)]
  exact set_strlen_self t

/-- Running `text_remove_character` on a well-formed line at a column inside the
content (`1 ≤ x ≤` content length): the byte at index `x - 1` is removed and
the result is again a well-formed line. -/
theorem text_remove_mkText (c : List Nat) (x : Nat)
    (hc : ∀ a ∈ c, a ≠ 0) (hlen : c.length ≤ MAX_LINE_LEN - 1)
    (hx1 : 1 ≤ x) (hx2 : x ≤ c.length) :
    text_remove_character (mkText c) (x : Int) = mkText (c.take (x - 1) ++ c.drop x) := by
  have hlen' : c.length ≤ 127 := by simpa [MAX_LINE_LEN] using hlen
  have hx0 : (0 : Int) ≤ (x : Int) - 1 := by omega
  have hxt : ((x : Int) - 1).toNat = x - 1 := by omega
  have hml : (mkText c).length = 128 := by
    have := mkText_length c (by simp [MAX_LINE_LEN]; omega)
    simpa [MAX_LINE_LEN] using this
  simp only [text_remove_character, if_pos hx0, hxt]
  rw [hml, mkText_eq c hlen,
    removeLoop_spec 128 c _ (x - 1) hc (by omega) (by omega),
    show x - 1 + 1 = x by omega, set_strlen_self]
  have hc'len : (c.take (x - 1) ++ c.drop x).length = c.length - 1 := by
    simp; omega
  rw [mkText, hc'len,
    show MAX_LINE_LEN - (c.length - 1) = (MAX_LINE_LEN - 1 - c.length) + 1 + 1 by
      simp [MAX_LINE_LEN]; omega,
    List.replicate_succ, List.replicate_succ]

/-! ### Characterizing the insert loops -/

/-- Once the guard fails, `gapLoop` is the identity, for any fuel. -/
theorem gapLoop_stop (fuel : Nat) (t : Text) (i : Nat) (x : Int) (h : ¬ (i : Int) < x) :
    gapLoop fuel t i x = t := by
  cases fuel <;> simp [gapLoop, h]

/-- The gap-fill loop does not change a text whose bytes at the scanned
positions are all non-NUL. -/
theorem gapLoop_noop (fuel : Nat) :
    ∀ (t : Text) (i : Nat) (x : Int),
      (∀ j : Nat, i ≤ j → (j : Int) < x → t.getD j 0 ≠ 0) →
      gapLoop fuel t i x = t := by
  induction fuel with
  | zero => intro t i x _; rfl
  | succ fuel ih =>
    intro t i x h
    by_cases hix : (i : Int) < x
    · rw [gapLoop, if_pos hix, if_neg (h i le_rfl hix)]
      exact ih t (i + 1) x (fun j hj hjx => h j (by omega) hjx)
    · rw [gapLoop, if_neg hix]

/-- Once the guard fails, `shiftLoop` is the identity, for any fuel. -/
theorem shiftLoop_stop (fuel : Nat) (t : Text) (i x : Int) (h : ¬ x ≤ i) :
    shiftLoop fuel t i x = t := by
  cases fuel <;> simp [shiftLoop, h]

/-- Effect of the shift-right loop started at index `i` with target column
`x ≤ i`, when index `i + 1` is still inside the array: the bytes at `x..i`
move one slot right (the byte at `x` stays duplicated in slot `x`, which the
caller overwrites right after). -/
theorem shiftLoop_spec (fuel : Nat) :
    ∀ (t : Text) (i x : Nat), x ≤ i → i + 1 < t.length → i - x < fuel →
      shiftLoop fuel t (i : Int) (x : Int) =
        t.take (x + 1) ++ (t.drop x).take (i + 1 - x) ++ t.drop (i + 2) := by
  induction fuel with
  | zero => intro t i x _ _ hf; omega
  | succ fuel ih =>
    intro t i x hxi hlen hf
    have hi : i < t.length := by omega
    have hgd : t.getD i 0 = t[i] := List.getD_eq_getElem t 0 hi
    rw [shiftLoop, if_pos (by exact_mod_cast hxi)]
    have hset : setChar t ((i : Int) + 1) (getChar t (i : Int)) = t.set (i + 1) t[i] := by
      unfold setChar getChar
      rw [if_pos (by omega), if_pos (by omega),
        show ((i : Int) + 1).toNat = i + 1 by omega,
        show ((i : Int)).toNat = i by omega, hgd]
    rw [hset]
    by_cases hxi' : x < i
    · rw [show (i : Int) - 1 = ((i - 1 : Nat) : Int) by omega]
      rw [ih (t.set (i + 1) t[i]) (i - 1) x (by omega) (by simp; omega) (by omega)]
      have e1 : (t.set (i + 1) t[i]).take (x + 1) = t.take (x + 1) := by
        rw [List.set_take, List.set_eq_of_length_le (by simp; omega)]
      have e2 : ((t.set (i + 1) t[i]).drop x).take (i - 1 + 1 - x) =
          (t.drop x).take (i - x) := by
        rw [List.drop_set, if_neg (by omega), List.set_take,
          List.set_eq_of_length_le (by simp; omega), show i - 1 + 1 - x = i - x by omega]
      have e3 : (t.set (i + 1) t[i]).drop (i - 1 + 2) = t[i] :: t.drop (i + 2) := by
        rw [List.drop_set, if_neg (by omega), show i - 1 + 2 = i + 1 by omega,
          List.drop_eq_getElem_cons hlen, show i + 1 - (i + 1) = 0 by omega,
          List.set_cons_zero]
      rw [e1, e2, e3]
      have e4 : (t.drop x).take (i + 1 - x) = (t.drop x).take (i - x) ++ [t[i]] := by
        rw [show i + 1 - x = (i - x) + 1 by omega, List.take_succ]
        have hix2 : i - x < (t.drop x).length := by simp; omega
        rw [List.getElem?_eq_getElem hix2]
        have h6 : (t.drop x)[i - x] = t[i] := by
          rw [List.getElem_drop]
          congr 1
          omega
        rw [h6]
        rfl
      rw [e4]
      simp
    · -- `x = i`: one iteration, then the guard fails
      have hx : x = i := by omega
      rw [shiftLoop_stop fuel _ _ _ (by omega)]
      rw [List.set_eq_take_cons_drop t[i] (by omega : i + 1 < t.length), hx]
      have e5 : (t.drop i).take (i + 1 - i) = [t[i]] := by
        rw [List.drop_eq_getElem_cons hi, show i + 1 - i = 1 by omega]
        rfl
      rw [e5]
      simp

/-- Running `text_insert_character` on a well-formed line with a non-NUL byte `ch`
(the spec's terminator sentinel is not a character; the call site only passes
printable bytes), at a column inside `[0, content length]`, when the line has
room for one more byte: `ch` lands at index `x` and the bytes from `x` on
shift right one slot. -/
theorem text_insert_mkText (c : List Nat) (ch : Nat) (x : Nat)
    (hc : ∀ a ∈ c, a ≠ 0)
    (hlen : c.length + 1 ≤ MAX_LINE_LEN - 1) (hx : x ≤ c.length) :
    text_insert_character (mkText c) ch (x : Int) =
      mkText (c.take x ++ ch :: c.drop x) := by
  have hlen' : c.length ≤ 126 := by
    have := hlen; simp [MAX_LINE_LEN] at this; omega
  have hlen1 : c.length ≤ MAX_LINE_LEN - 1 := by simp [MAX_LINE_LEN]; omega
  have hml : (mkText c).length = 128 := by
    have := mkText_length c (by simp [MAX_LINE_LEN]; omega)
    simpa [MAX_LINE_LEN] using this
  have hstr : strlen (mkText c) = c.length := strlen_mkText c hc hlen1
  have hgap : gapLoop ((x : Int)).toNat (mkText c) 0 (x : Int) = mkText c := by
    apply gapLoop_noop
    intro j _ hjx
    have hj : j < c.length := by omega
    rw [mkText_eq c hlen1, getD_append_left c _ j 0 hj, List.getD_eq_getElem c 0 hj]
    exact hc _ (List.getElem_mem hj)
  simp only [text_insert_character, hgap, hstr]
  have hxz : ((x : Int)).toNat = x := by omega
  by_cases hx' : x < c.length
  · -- `text[x]` is content: the shift loop runs
    have hne : getChar (mkText c) (x : Int) ≠ 0 := by
      unfold getChar
      rw [if_pos (by omega), hxz, mkText_eq c hlen1, getD_append_left c _ x 0 hx',
        List.getD_eq_getElem c 0 hx']
      exact hc _ (List.getElem_mem hx')
    rw [if_pos hne]
    have hfuel : ((c.length : Int) - (x : Int) + 1).toNat = c.length - x + 1 := by omega
    rw [hfuel, shiftLoop_spec (c.length - x + 1) (mkText c) c.length x hx (by omega)
      (by omega)]
    -- assemble the shifted array
    rw [mkText_eq c hlen1]
    set z := List.replicate (MAX_LINE_LEN - 1 - c.length) 0 with hz
    have hzlen : z.length = 127 - c.length := by simp [hz, MAX_LINE_LEN]
    have e1 : (c ++ 0 :: z).take (x + 1) = c.take (x + 1) := by
      rw [List.take_append_eq_append_take, show x + 1 - c.length = 0 by omega]
      simp
    have e2 : (c ++ 0 :: z).drop x = c.drop x ++ 0 :: z := by
      rw [List.drop_append_eq_append_drop, show x - c.length = 0 by omega]
      rfl
    have e3 : (c.drop x ++ 0 :: z).take (c.length + 1 - x) = c.drop x ++ [0] := by
      rw [List.take_append_eq_append_take,
        show c.length + 1 - x - (c.drop x).length = 1 by simp; omega,
        List.take_of_length_le (by simp; omega)]
      rfl
    have e4 : (c ++ 0 :: z).drop (c.length + 2) = List.replicate (126 - c.length) 0 := by
      rw [List.drop_append_eq_append_drop, List.drop_eq_nil_of_le (by omega),
        show c.length + 2 - c.length = 2 by omega, hz,
        show MAX_LINE_LEN - 1 - c.length = (126 - c.length) + 1 by simp [MAX_LINE_LEN]; omega,
        List.replicate_succ]
      rfl
    rw [e2, e1, e3, e4]
    -- the final write at `x`
    have hx1 : x < (c.take (x + 1) ++ (c.drop x ++ [0]) ++ List.replicate (126 - c.length) 0).length := by
      simp; omega
    unfold setChar
    rw [if_pos (by omega), hxz, List.set_eq_take_cons_drop ch hx1]
    have htk : (c.take (x + 1) ++ (c.drop x ++ [0]) ++ List.replicate (126 - c.length) 0).take x
        = c.take x := by
      rw [List.append_assoc, List.take_append_eq_append_take,
        show x - (c.take (x + 1)).length = 0 by simp; omega, List.take_take,
        show min x (x + 1) = x by omega]
      simp
    have hdr : (c.take (x + 1) ++ (c.drop x ++ [0]) ++ List.replicate (126 - c.length) 0).drop (x + 1)
        = c.drop x ++ 0 :: List.replicate (126 - c.length) 0 := by
      rw [List.append_assoc, List.drop_append_eq_append_drop,
        List.drop_eq_nil_of_le (by simp),
        show x + 1 - (c.take (x + 1)).length = 0 by simp; omega]
      simp
    rw [htk, hdr, mkText,
      show MAX_LINE_LEN - (c.take x ++ ch :: c.drop x).length = (126 - c.length) + 1 by
        simp [MAX_LINE_LEN]; omega,
      List.replicate_succ]
    simp
  · -- `x` is exactly the content length: `text[x]` is the terminator
    have hxe : x = c.length := by omega
    have hget : getChar (mkText c) (x : Int) = 0 := by
      unfold getChar
      rw [if_pos (by omega), hxz, mkText_eq c hlen1, hxe]
      simpa using getD_append_right c ((0 : Nat) :: List.replicate (MAX_LINE_LEN - 1 - c.length) 0) 0 0
    rw [if_neg (by simp [hget])]
    unfold setChar
    have hx1 : x < (mkText c).length := by omega
    rw [if_pos (by omega), hxz, List.set_eq_take_cons_drop ch hx1, mkText_eq c hlen1, hxe]
    have htk : (c ++ 0 :: List.replicate (MAX_LINE_LEN - 1 - c.length) 0).take c.length = c := by
      rw [List.take_append_eq_append_take, show c.length - c.length = 0 by omega,
        List.take_length]
      simp
    have hdr : (c ++ 0 :: List.replicate (MAX_LINE_LEN - 1 - c.length) 0).drop (c.length + 1)
        = List.replicate (MAX_LINE_LEN - 1 - c.length) 0 := by
      rw [List.drop_append_eq_append_drop, List.drop_eq_nil_of_le (by omega),
        show c.length + 1 - c.length = 1 by omega]
      rfl
    rw [htk, hdr, mkText, List.take_length, List.drop_length,
      show MAX_LINE_LEN - (c ++ ch :: []).length = MAX_LINE_LEN - 1 - c.length by
        simp [MAX_LINE_LEN]]
    simp

/-! ### Characterizing `buffer_select_node` -/

/-- Effect of the walk from node `i` (which exists) to node `y ≥ i`: every
missing node up to index `y` is allocated as an empty node, and `current`
ends at index `y`. -/
theorem selectWalk_spec (fuel : Nat) :
    ∀ (b : Buffer) (i y : Nat), i < b.length → i ≤ y → y - i ≤ fuel →
      selectWalk fuel b i (y : Int) =
        (b ++ List.replicate (y + 1 - b.length) emptyText, y) := by
  induction fuel with
  | zero =>
    intro b i y hib hiy hf
    have hy : i = y := by omega
    rw [selectWalk, show (y + 1 - b.length) = 0 by omega]
    simp [hy]
  | succ fuel ih =>
    intro b i y hib hiy hf
    by_cases hiy' : i < y
    · rw [selectWalk, if_pos (by exact_mod_cast hiy')]
      by_cases hnext : i + 1 < b.length
      · rw [if_pos hnext, ih b (i + 1) y hnext (by omega) (by omega)]
      · rw [if_neg hnext, ih (b ++ [emptyText]) (i + 1) y (by simp; omega) (by omega)
          (by omega)]
        have hbl : b.length = i + 1 := by omega
        rw [List.append_assoc, show y + 1 - (b ++ [emptyText]).length = y - (i + 1) by
          simp; omega]
        have : ([emptyText] ++ List.replicate (y - (i + 1)) emptyText : Buffer)
            = List.replicate (y + 1 - b.length) emptyText := by
          rw [show y + 1 - b.length = (y - (i + 1)) + 1 by omega, List.replicate_succ]
          rfl
        rw [this]
    · have hy : i = y := by omega
      rw [selectWalk, if_neg (by exact_mod_cast hiy'),
        show (y + 1 - b.length) = 0 by omega]
      simp [hy]

/-- Running `buffer_select_node` at a non-negative row `y`: after ensuring a head
node exists, exactly the missing nodes up to index `y` are allocated, all
empty, and `current` is the node at index `y`. -/
theorem buffer_select_node_spec (b : Buffer) (y : Nat) :
    buffer_select_node b (y : Int) =
      ((if b.isEmpty then [emptyText] else b) ++
        List.replicate (y + 1 - (if b.isEmpty then [emptyText] else b).length) emptyText,
       y) := by
  have h0 : 0 < (if b.isEmpty then [emptyText] else b).length := by
    cases b <;> simp
  rw [buffer_select_node, show ((y : Int)).toNat = y by omega]
  exact selectWalk_spec y _ 0 y h0 (by omega) (by omega)

/-- Running `buffer_select_node` at `y ≤ 0`: the `for (i = 0; i < y; i++)` walk never
runs, so only the head-creation branch can act. -/
theorem buffer_select_node_nonpos (b : Buffer) (y : Int) (h : y ≤ 0) :
    buffer_select_node b y = ((if b.isEmpty then [emptyText] else b), 0) := by
  rw [buffer_select_node, show y.toNat = 0 by omega, selectWalk]

/-- Selecting a row that already exists in a non-empty store allocates
nothing and just walks to it. -/
theorem buffer_select_node_of_long (B : Buffer) (n : Nat)
    (hne : B.isEmpty = false) (hlen : n + 1 ≤ B.length) :
    buffer_select_node B (n : Int) = (B, n) := by
  rw [buffer_select_node_spec B n]
  simp [hne, show n + 1 - B.length = 0 from by omega]

/-! ### The claims -/

/-- Claim C1 (code evaluated at the failing input): the claim demands that
`insert` at `col ≥ MAX_LINE_LEN - 1` fail with `LineOverflow` and leave the
line unchanged.  The source has no such check: inserting `'X'` (88) at column
127 of the empty line 0 gap-fills columns 0..126 with spaces and writes 88
into the last array slot, leaving a changed line whose 128 bytes are all
non-NUL — the array no longer holds a terminator, so its content length
equals `MAX_LINE_LEN`, exceeding the `MAX_LINE_LEN - 1` capacity invariant
(for `col ≥ 128` the C code writes past the array). -/
theorem insert_overflow_unchecked :
    buffer_insert_character ([] : Buffer) 88 127 0 = [List.replicate 127 32 ++ [88]] ∧
    strlen (List.replicate 127 32 ++ [88]) = MAX_LINE_LEN ∧
    buffer_insert_character ([] : Buffer) 88 127 0 ≠ [emptyText] := by
  refine ⟨by decide, by decide, by decide⟩

/-- Claim C2 (counterexample): the claim states that delete at `col = 0`
fails with `InvalidPosition`.  The source's delete never fails — at `col = 0`
it returns successfully with the line unchanged (the loop guard promotes the
start index `-1` to `size_t`, so the shifting loop never runs and no
out-of-bounds write occurs). -/
theorem remove_at_zero_not_error :
    text_remove_outcome (mkText [104, 105]) 0 ≠ Except.error EditError.invalidPosition ∧
    text_remove_character (mkText [104, 105]) 0 = mkText [104, 105] := by
  exact ⟨by simp [text_remove_outcome], by decide⟩

/-- Claim C2 (amended): for every store state and every row, delete at
`col = 0` is a silent no-op on the store beyond `select`'s lazy line
creation — in particular the target line's content is unchanged.  No
`InvalidPosition` error is signalled (the source has no error channel), and
no out-of-bounds write occurs, because the loop guard compares the signed
start index `-1` with the unsigned `strlen` result. -/
theorem remove_at_zero_noop (b : Buffer) (y : Int) :
    buffer_remove_character b 0 y = (buffer_select_node b y).1 := by
  simp only [buffer_remove_character]
  rw [text_remove_nonpos _ 0 le_rfl]
  exact set_getD_self _ _ _

/-- Claim C3: for every line with NUL-free content `c` of length `L`, every
character `ch` (a character is a non-NUL byte; the sentinel 0 is the
terminator, and the call site only passes printable bytes), and every column
`x ≤ L` with `L + 1 ≤ MAX_LINE_LEN - 1`: after insert, the content length is
exactly `L + 1`, the character at `x` is `ch`, the characters before `x` are
unchanged, and each character formerly at `p ≥ x` now sits at `p + 1`. -/
theorem insert_correct (c : List Nat) (ch : Nat) (x : Nat)
    (hc : ∀ a ∈ c, a ≠ 0) (hch : ch ≠ 0)
    (hlen : c.length + 1 ≤ MAX_LINE_LEN - 1) (hx : x ≤ c.length) :
    (content (text_insert_character (mkText c) ch (x : Int))).length = c.length + 1 ∧
    (content (text_insert_character (mkText c) ch (x : Int))).getD x 0 = ch ∧
    (∀ p : Nat, p < x →
      (content (text_insert_character (mkText c) ch (x : Int))).getD p 0 = c.getD p 0) ∧
    (∀ p : Nat, p < c.length → x ≤ p →
      (content (text_insert_character (mkText c) ch (x : Int))).getD (p + 1) 0
        = c.getD p 0) := by
  have hc' : ∀ a ∈ c.take x ++ ch :: c.drop x, a ≠ 0 := by
    intro a ha
    rcases List.mem_append.1 ha with h1 | h2
    · exact hc a (List.take_subset _ _ h1)
    · rcases List.mem_cons.1 h2 with rfl | h3
      · exact hch
      · exact hc a (List.drop_subset _ _ h3)
  have hrw : content (text_insert_character (mkText c) ch (x : Int))
      = c.take x ++ ch :: c.drop x := by
    rw [text_insert_mkText c ch x hc hlen hx, content_mkText _ hc' (by simp; omega)]
  rw [hrw]
  have hti : (c.take x).length = x := by simp; omega
  refine ⟨by simp; omega, ?_, ?_, ?_⟩
  · have h := getD_append_right (c.take x) (ch :: c.drop x) 0 0
    rw [hti] at h
    simpa using h
  · intro p hp
    rw [getD_append_left _ _ p 0 (by simp; omega), getD_take c x p 0 hp]
  · intro p hpc hxp
    have h := getD_append_right (c.take x) (ch :: c.drop x) (p + 1 - x) 0
    rw [hti, show x + (p + 1 - x) = p + 1 by omega] at h
    rw [h, show p + 1 - x = (p - x) + 1 by omega, List.getD_cons_succ, getD_drop,
      show x + (p - x) = p by omega]

/-- Claim C3 (witness): the general theorem applied to the line `"hi"`
(bytes 104, 105), inserting 88 at column 1. -/
theorem insert_correct_witness :
    (∀ a ∈ [104, 105], a ≠ 0) ∧ (88 ≠ 0) ∧
    ([104, 105] : List Nat).length + 1 ≤ MAX_LINE_LEN - 1 ∧ 1 ≤ ([104, 105] : List Nat).length ∧
    ((content (text_insert_character (mkText [104, 105]) 88 (1 : Int))).length
        = ([104, 105] : List Nat).length + 1 ∧
      (content (text_insert_character (mkText [104, 105]) 88 (1 : Int))).getD 1 0 = 88 ∧
      (∀ p : Nat, p < 1 →
        (content (text_insert_character (mkText [104, 105]) 88 (1 : Int))).getD p 0
          = ([104, 105] : List Nat).getD p 0) ∧
      (∀ p : Nat, p < ([104, 105] : List Nat).length → 1 ≤ p →
        (content (text_insert_character (mkText [104, 105]) 88 (1 : Int))).getD (p + 1) 0
          = ([104, 105] : List Nat).getD p 0)) :=
  ⟨by decide, by decide, by decide, by decide,
    insert_correct [104, 105] 88 1 (by decide) (by decide) (by decide) (by decide)⟩

/-- Claim C4: for every line with NUL-free content `c` of length
`L ≤ MAX_LINE_LEN - 1` and every column `x` with `1 ≤ x ≤ L`: after delete,
the content length is exactly `L - 1`, the characters before `x - 1` are
unchanged, and each character formerly at `p ≥ x` now sits at `p - 1` (the
character formerly at `x - 1` is removed). -/
theorem remove_correct (c : List Nat) (x : Nat)
    (hc : ∀ a ∈ c, a ≠ 0) (hlen : c.length ≤ MAX_LINE_LEN - 1)
    (hx1 : 1 ≤ x) (hx2 : x ≤ c.length) :
    (content (text_remove_character (mkText c) (x : Int))).length = c.length - 1 ∧
    (∀ p : Nat, p < x - 1 →
      (content (text_remove_character (mkText c) (x : Int))).getD p 0 = c.getD p 0) ∧
    (∀ p : Nat, p < c.length → x ≤ p →
      (content (text_remove_character (mkText c) (x : Int))).getD (p - 1) 0
        = c.getD p 0) := by
  have hc' : ∀ a ∈ c.take (x - 1) ++ c.drop x, a ≠ 0 := by
    intro a ha
    rcases List.mem_append.1 ha with h1 | h2
    · exact hc a (List.take_subset _ _ h1)
    · exact hc a (List.drop_subset _ _ h2)
  have hrw : content (text_remove_character (mkText c) (x : Int))
      = c.take (x - 1) ++ c.drop x := by
    rw [text_remove_mkText c x hc hlen hx1 hx2, content_mkText _ hc' (by simp; omega)]
  rw [hrw]
  have hti : (c.take (x - 1)).length = x - 1 := by simp; omega
  refine ⟨by simp; omega, ?_, ?_⟩
  · intro p hp
    rw [getD_append_left _ _ p 0 (by simp; omega), getD_take c (x - 1) p 0 hp]
  · intro p hpc hxp
    have h := getD_append_right (c.take (x - 1)) (c.drop x) (p - x) 0
    rw [hti, show x - 1 + (p - x) = p - 1 by omega] at h
    rw [h, getD_drop, show x + (p - x) = p by omega]

/-- Claim C4 (witness): the general theorem applied to the line `"Hi"`
(bytes 72, 105), deleting at column 1 (which removes the byte at index 0). -/
theorem remove_correct_witness :
    (∀ a ∈ [72, 105], a ≠ 0) ∧ ([72, 105] : List Nat).length ≤ MAX_LINE_LEN - 1 ∧
    (1 : Nat) ≤ 1 ∧ 1 ≤ ([72, 105] : List Nat).length ∧
    ((content (text_remove_character (mkText [72, 105]) (1 : Int))).length
        = ([72, 105] : List Nat).length - 1 ∧
      (∀ p : Nat, p < 1 - 1 →
        (content (text_remove_character (mkText [72, 105]) (1 : Int))).getD p 0
          = ([72, 105] : List Nat).getD p 0) ∧
      (∀ p : Nat, p < ([72, 105] : List Nat).length → 1 ≤ p →
        (content (text_remove_character (mkText [72, 105]) (1 : Int))).getD (p - 1) 0
          = ([72, 105] : List Nat).getD p 0)) :=
  ⟨by decide, by decide, by decide, by decide,
    remove_correct [72, 105] 1 (by decide) (by decide) (by decide) (by decide)⟩

/-- Claim C5 (counterexample): the claim states that deleting at a column
`col ≥ 1` and re-inserting the removed character at the *same* `col` restores
the line.  It does not: on line `"Hi"` (bytes 72, 105), `delete(1, 0)`
removes the byte at index 0 (the 72), and inserting 72 back at column 1
yields `"iH"`, not `"Hi"` — insert places the character *at* index `col`,
while delete removed it from index `col - 1`. -/
theorem remove_insert_same_col_not_inverse :
    (content (mkText [72, 105])).getD 0 0 = 72 ∧
    buffer_remove_character [mkText [72, 105]] 1 0 = [mkText [105]] ∧
    buffer_insert_character (buffer_remove_character [mkText [72, 105]] 1 0) 72 1 0
      = [mkText [105, 72]] ∧
    buffer_insert_character (buffer_remove_character [mkText [72, 105]] 1 0) 72 1 0
      ≠ [mkText [72, 105]] := by
  refine ⟨by decide, by decide, by decide, by decide⟩

/-- Claim C5 (amended): for every line with NUL-free content `c` of length
`L ≤ MAX_LINE_LEN - 1` and every column `x` with `1 ≤ x ≤ L`, deleting at
`x` and then inserting the removed character (the byte formerly at index
`x - 1`) at column `x - 1` — the position it was removed from — restores the
original line. -/
theorem remove_insert_roundtrip (c : List Nat) (x : Nat)
    (hc : ∀ a ∈ c, a ≠ 0) (hlen : c.length ≤ MAX_LINE_LEN - 1)
    (hx1 : 1 ≤ x) (hx2 : x ≤ c.length) :
    text_insert_character (text_remove_character (mkText c) (x : Int))
      (c.getD (x - 1) 0) ((x - 1 : Nat) : Int) = mkText c := by
  have hc' : ∀ a ∈ c.take (x - 1) ++ c.drop x, a ≠ 0 := by
    intro a ha
    rcases List.mem_append.1 ha with h1 | h2
    · exact hc a (List.take_subset _ _ h1)
    · exact hc a (List.drop_subset _ _ h2)
  have hlen' : (c.take (x - 1) ++ c.drop x).length + 1 ≤ MAX_LINE_LEN - 1 := by
    simp [MAX_LINE_LEN] at *; omega
  rw [text_remove_mkText c x hc hlen hx1 hx2,
    text_insert_mkText _ _ (x - 1) hc' hlen' (by simp; omega)]
  congr 1
  have hti : (c.take (x - 1)).length = x - 1 := by simp; omega
  have h1 : (c.take (x - 1) ++ c.drop x).take (x - 1) = c.take (x - 1) := by
    rw [List.take_append_eq_append_take, show x - 1 - (c.take (x - 1)).length = 0 by omega,
      List.take_of_length_le (le_of_eq hti)]
    simp
  have h2 : (c.take (x - 1) ++ c.drop x).drop (x - 1) = c.drop x := by
    rw [List.drop_append_eq_append_drop, List.drop_eq_nil_of_le (le_of_eq hti),
      show x - 1 - (c.take (x - 1)).length = 0 by omega]
    simp
  have hx3 : x - 1 < c.length := by omega
  rw [h1, h2, List.getD_eq_getElem c 0 hx3]
  conv_rhs => rw [← List.take_append_drop (x - 1) c, List.drop_eq_getElem_cons hx3]
  rw [show x - 1 + 1 = x by omega]

/-- Claim C5 (witness): on the line `"Hi"`, deleting at column 1 removes the
byte 72, and re-inserting it at column 0 restores `"Hi"`. -/
theorem remove_insert_roundtrip_witness :
    (∀ a ∈ [72, 105], a ≠ 0) ∧ ([72, 105] : List Nat).length ≤ MAX_LINE_LEN - 1 ∧
    (1 : Nat) ≤ 1 ∧ 1 ≤ ([72, 105] : List Nat).length ∧
    text_insert_character (text_remove_character (mkText [72, 105]) (1 : Int))
      (([72, 105] : List Nat).getD (1 - 1) 0) ((1 - 1 : Nat) : Int) = mkText [72, 105] :=
  ⟨by decide, by decide, by decide, by decide,
    remove_insert_roundtrip [72, 105] 1 (by decide) (by decide) (by decide) (by decide)⟩

/-- Claim C6: for every store state and every row `y ≥ 0`, selecting row `y`
twice in a row with no intervening mutation returns the identical result the
second time: the same store (so the second call allocates no lines) and the
same node index — the identical line.  Lazy creation is idempotent. -/
theorem select_idempotent (b : Buffer) (y : Int) (h : 0 ≤ y) :
    buffer_select_node (buffer_select_node b y).1 y = buffer_select_node b y := by
  obtain ⟨n, rfl⟩ : ∃ n : Nat, y = (n : Int) := ⟨y.toNat, by omega⟩
  have h0 : 0 < (if b.isEmpty then [emptyText] else b).length := by
    cases b <;> simp
  rw [buffer_select_node_spec b n]
  apply buffer_select_node_of_long
  · cases b <;> simp
  · simp; omega

/-- Claim C6 (witness): selecting row 2 twice on the empty store. -/
theorem select_idempotent_witness :
    (0 : Int) ≤ 2 ∧
    buffer_select_node (buffer_select_node ([] : Buffer) 2).1 2
      = buffer_select_node ([] : Buffer) 2 :=
  ⟨by decide, select_idempotent [] 2 (by decide)⟩

/-- Claim C7: for every store with `C` lines and every requested index
`y ≥ C`, `select(y)` allocates exactly the missing lines `C..y`, all empty
(`calloc`ed), with no sparse holes, returning the line at index `y`; when the
store starts empty the resulting line sequence has length `y + 1`. -/
theorem select_lazy_creation (b : Buffer) (y : Nat) (h : b.length ≤ y) :
    buffer_select_node b (y : Int)
      = (b ++ List.replicate (y + 1 - b.length) emptyText, y) ∧
    (b = [] → (buffer_select_node b (y : Int)).1.length = y + 1) := by
  have hmain : buffer_select_node b (y : Int)
      = (b ++ List.replicate (y + 1 - b.length) emptyText, y) := by
    rw [buffer_select_node_spec b y]
    cases hb : b with
    | nil => simp [List.replicate_succ]
    | cons t ts => simp
  refine ⟨hmain, fun hbe => ?_⟩
  rw [hmain, hbe]
  simp

/-- Claim C7 (witness): `select(3)` on the empty store creates exactly 4
empty lines at indices 0..3 and returns the line at index 3. -/
theorem select_lazy_creation_witness :
    ([] : Buffer).length ≤ 3 ∧
    (buffer_select_node ([] : Buffer) ((3 : Nat) : Int)
        = ([] ++ List.replicate (3 + 1 - ([] : Buffer).length) emptyText, 3) ∧
      (([] : Buffer) = [] → (buffer_select_node ([] : Buffer) ((3 : Nat) : Int)).1.length
        = 3 + 1)) :=
  ⟨by decide, select_lazy_creation [] 3 (by decide)⟩

/-- Claim C8: from the empty store, `insert('X', 5, 0)` (byte 88, no prior
content) produces line 0 whose content is exactly five spaces followed by
`'X'`, of logical length 6: the gap positions 0..4 past the current content
end are filled with spaces before the write at column 5. -/
theorem insert_gap_fill_scenario :
    buffer_insert_character ([] : Buffer) 88 5 0 = [mkText (List.replicate 5 32 ++ [88])] ∧
    content ((buffer_insert_character ([] : Buffer) 88 5 0).getD 0 emptyText)
      = List.replicate 5 32 ++ [88] ∧
    (content ((buffer_insert_character ([] : Buffer) 88 5 0).getD 0 emptyText)).length
      = 6 := by
  refine ⟨by decide, by decide, by decide⟩

/-- Claim C9: for every store state and every row `y ≤ 0`, `select(y)`
behaves exactly like `select(0)`: the walk loop never runs, so it returns the
head line at index 0, allocating at most the head line (only when the store
is empty, and then it is an empty line); no negative-index traversal or
further allocation occurs. -/
theorem select_nonpositive (b : Buffer) (y : Int) (h : y ≤ 0) :
    buffer_select_node b y = buffer_select_node b 0 ∧
    (buffer_select_node b y).2 = 0 ∧
    (buffer_select_node b y).1 = (if b.isEmpty then [emptyText] else b) := by
  have h1 := buffer_select_node_nonpos b y h
  have h2 := buffer_select_node_nonpos b 0 le_rfl
  rw [h1, h2]
  exact ⟨rfl, rfl, rfl⟩

/-- Claim C9 (witness): selecting row `-3` on a one-line store behaves like
selecting row 0. -/
theorem select_nonpositive_witness :
    (-3 : Int) ≤ 0 ∧
    (buffer_select_node [mkText [72]] (-3) = buffer_select_node [mkText [72]] 0 ∧
      (buffer_select_node [mkText [72]] (-3)).2 = 0 ∧
      (buffer_select_node [mkText [72]] (-3)).1
        = (if ([mkText [72]] : Buffer).isEmpty then [emptyText] else [mkText [72]])) :=
  ⟨by decide, select_nonpositive [mkText [72]] (-3) (by decide)⟩

/-- Claim C10: for every line with NUL-free content `c` of length
`L ≤ MAX_LINE_LEN - 1` and every column `x` with `x - 1 ≥ L` (a delete
requested strictly past the end of the content), delete leaves the line
entirely unchanged: the shift loop performs no iterations and the final NUL
write overwrites the existing terminator. -/
theorem remove_past_end (c : List Nat) (x : Int)
    (hc : ∀ a ∈ c, a ≠ 0) (hlen : c.length ≤ MAX_LINE_LEN - 1)
    (hx : (c.length : Int) ≤ x - 1) :
    text_remove_character (mkText c) x = mkText c := by
  apply text_remove_pastEnd
  rw [strlen_mkText c hc hlen]
  exact hx

/-- Claim C10 (witness): deleting at column 5 of the one-byte line `"h"`
leaves it unchanged. -/
theorem remove_past_end_witness :
    (∀ a ∈ [104], a ≠ 0) ∧ ([104] : List Nat).length ≤ MAX_LINE_LEN - 1 ∧
    (([104] : List Nat).length : Int) ≤ 5 - 1 ∧
    text_remove_character (mkText [104]) 5 = mkText [104] :=
  ⟨by decide, by decide, by decide,
    remove_past_end [104] 5 (by decide) (by decide) (by decide)⟩
